import Mathlib

/-!
Shallow embedding of the `cmds-eagle` Obsidian plugin (an Eagle
asset-library integration) and proofs about it.

Source files embedded here:
* `src/modals.ts` (provided as `src/unnamed/part_000`): `EagleSearchModal`
  (item loading, filtering, scope/type buttons, tag/size/path formatting)
  and `ImagePasteChoiceModal`.
* `src/settings.ts`: the settings tab, in particular the per-provider
  cloud-credential `onChange` handlers and the search-filter buttons.

JavaScript strings are modelled as `List Char` (`JStr`) where character
level reasoning is needed, and as Lean `String` elsewhere.  The constants
`SUPPORTED_IMAGE_EXTENSIONS`, `SUPPORTED_VIDEO_EXTENSIONS` and
`SUPPORTED_DOCUMENT_EXTENSIONS` live in `src/types.ts`, which is not part
of the provided sources; they are treated as parameters (an `ExtLists`
record) wherever they are used.
-/

namespace CmdsEagle

/-- Model of a JavaScript string as a list of characters. -/
abbrev JStr := List Char

/-! ## Data model: `EagleItem` (from `src/types.ts`, fields as used by the code) -/

/-- An Eagle library item as consumed by the modal code.  The `annot`
field is named `annotation` in the source. -/
structure EagleItem where
  id : String
  name : String
  ext : String
  size : Nat
  width : Option Nat
  height : Option Nat
  tags : List String
  annot : String
  folders : List String
deriving DecidableEq, Repr

/-- Search scopes, the `SearchScope` union type of `src/types.ts`.
`annot` is named `annotation` in the source. -/
inductive SearchScope where
  | name
  | tags
  | annot
  | folders
deriving DecidableEq, Repr

/-- State of `EagleSearchModal` relevant to the claims: the loaded item
list, the in-flight guard, and the active scope / file-type filters.
`activeScopes` and `activeFileTypes` are JS `Set`s in the source; the
file-type set is modelled as a list with set-like membership. -/
structure SearchModalState where
  allItems : List EagleItem
  isLoading : Bool
  activeScopes : Finset SearchScope
  activeFileTypes : List String
deriving DecidableEq

/-- `EagleSearchModal.getItems`:
`this.allItems.filter(item => this.activeFileTypes.has(item.ext.toLowerCase()))`. -/
def getItems (st : SearchModalState) : List EagleItem :=
  st.allItems.filter (fun item => st.activeFileTypes.contains item.ext.toLower)

/-! ## `formatFileSize` and its specification -/

/-- `Number.prototype.toFixed(1)` applied to the exact value `num / den`,
for a positive denominator: the integer number of tenths nearest to
`10 * num / den`, ties to the larger (ES spec: "if there are two such n,
pick the larger n"), rendered as `"<int>.<tenth>"`.  The divisions by
1024 and 1048576 below are exact in binary floating point, so this is the
value the JavaScript code computes. -/
def toFixed1 (num den : Nat) : String :=
  let scaled := (10 * num + den / 2) / den
  toString (scaled / 10) ++ "." ++ toString (scaled % 10)

/-- `EagleSearchModal.formatFileSize`. -/
def formatFileSize (bytes : Nat) : String :=
  if bytes < 1024 then toString bytes ++ " B"
  else if bytes < 1024 * 1024 then toFixed1 bytes 1024 ++ " KB"
  else toFixed1 bytes (1024 * 1024) ++ " MB"

/-- Spec-side rounding: `n / d` "rounded to one decimal" as the number of
tenths, i.e. the floor of `10 * n / d + 1 / 2` computed over `ℚ`. -/
def specRoundTenths (n d : Nat) : Nat :=
  ⌊(10 * n : ℚ) / (d : ℚ) + 1 / 2⌋₊

/-- Render a number of tenths as `"<integer part>.<tenths digit>"`. -/
def specTenthsString (r : Nat) : String :=
  toString (r / 10) ++ "." ++ toString (r % 10)

/-- `formatFileSize` as the claim states it: `"<n> B"` below 1024,
`"<n/1024 rounded to one decimal> KB"` below 1048576, else
`"<n/1048576 rounded to one decimal> MB"`. -/
def specFormatFileSize (n : Nat) : String :=
  if n < 1024 then toString n ++ " B"
  else if n < 1048576 then specTenthsString (specRoundTenths n 1024) ++ " KB"
  else specTenthsString (specRoundTenths n 1048576) ++ " MB"

/-! ## `loadItems` (C6, C7)

The three awaited API calls are modelled as an environment of
`Except Unit` results: `.error ()` models the call throwing.  `loadItems`
returns the new modal state together with its observable effects: the
user-facing notices shown, whether the modal was closed, and how many API
requests were issued. -/

/-- Results of the API calls `loadItems` awaits, in program order. -/
structure LoadEnv where
  isConnected : Except Unit Bool
  getLibraryName : Except Unit (Option String)
  listItems : Except Unit (List EagleItem)

/-- Observable outcome of one `loadItems` call. -/
structure LoadResult where
  state : SearchModalState
  notices : List String
  closed : Bool
  requests : Nat
deriving DecidableEq

/-- Notice shown when `isConnected` returns `false`. -/
def eagleNotRunningNotice : String :=
  "Eagle is not running. Please start Eagle and try again."

/-- Notice shown by the `catch` block of `loadItems`. -/
def loadFailedNotice : String :=
  "Failed to load Eagle items. Check console for details."

/-- `EagleSearchModal.loadItems`: early-return when `isLoading` is set;
otherwise set `isLoading`, await `isConnected`, `getLibraryName` and
`listItems` in order inside a `try` whose `catch` shows a notice, with a
`finally` clearing `isLoading` on every path that entered the `try`. -/
def loadItems (env : LoadEnv) (st : SearchModalState) : LoadResult :=
  if st.isLoading then
    { state := st, notices := [], closed := false, requests := 0 }
  else
    let st1 : SearchModalState := { st with isLoading := true }
    match env.isConnected with
    | .error _ =>
      { state := { st1 with isLoading := false },
        notices := [loadFailedNotice], closed := false, requests := 1 }
    | .ok connected =>
      if !connected then
        { state := { st1 with isLoading := false },
          notices := [eagleNotRunningNotice], closed := true, requests := 1 }
      else
        match env.getLibraryName with
        | .error _ =>
          { state := { st1 with isLoading := false },
            notices := [loadFailedNotice], closed := false, requests := 2 }
        | .ok _libName =>
          match env.listItems with
          | .error _ =>
            { state := { st1 with isLoading := false },
              notices := [loadFailedNotice], closed := false, requests := 3 }
          | .ok items =>
            { state := { st1 with allItems := items, isLoading := false },
              notices := [], closed := false, requests := 3 }

/-! ## Scope buttons (C8) -/

/-- Click handler of `EagleSearchModal.createScopeButton`: deactivating
is allowed only while more than one scope is active; otherwise the click
activates the scope. -/
def scopeClick (active : Finset SearchScope) (scope : SearchScope) :
    Finset SearchScope :=
  if scope ∈ active then
    if 1 < active.card then active.erase scope else active
  else
    insert scope active

/-- Scope-button click handler of
`CMDSPACEEagleSettingTab.renderSearchFiltersSettings`; the stored
`searchScope` is an array (`includes` / `filter` / `push`). -/
def settingsScopeClick (scopes : List SearchScope) (key : SearchScope) :
    List SearchScope :=
  if key ∈ scopes then
    if 1 < scopes.length then scopes.filter (fun s => s ≠ key) else scopes
  else
    scopes ++ [key]

/-! ## File-type buttons (C9)

`SUPPORTED_IMAGE_EXTENSIONS`, `SUPPORTED_VIDEO_EXTENSIONS` and
`SUPPORTED_DOCUMENT_EXTENSIONS` are defined in `src/types.ts`, which is
not part of the provided sources; they appear here as the fields of an
`ExtLists` parameter. -/

/-- The three extension-list constants from `src/types.ts`. -/
structure ExtLists where
  images : List String
  videos : List String
  documents : List String

/-- The `FileTypeCategory` union type of the modal code. -/
inductive FileTypeCategory where
  | images
  | videos
  | documents
  | all
deriving DecidableEq, Repr

/-- `EagleSearchModal.getExtensionsForCategory`. -/
def getExtensionsForCategory (x : ExtLists) :
    FileTypeCategory → List String
  | .images => x.images
  | .videos => x.videos
  | .documents => x.documents
  | .all => x.images ++ x.videos ++ x.documents

/-- `EagleSearchModal.isTypeCategoryActive`:
`extensions.some(ext => this.activeFileTypes.has(ext))`.  The JS `Set`
`activeFileTypes` is modelled as a list with set-like membership. -/
def isTypeCategoryActive (x : ExtLists) (active : List String)
    (cat : FileTypeCategory) : Bool :=
  (getExtensionsForCategory x cat).any (fun ext => active.contains ext)

/-- `exts.forEach(ext => set.delete(ext))` on the list model of a set. -/
def setDeleteAll (active exts : List String) : List String :=
  exts.foldl (fun acc e => acc.filter (fun a => a ≠ e)) active

/-- `exts.forEach(ext => set.add(ext))` on the list model of a set (also
models the settings-tab forEach/includes/push loop, which skips
elements already present). -/
def setAddAll (active exts : List String) : List String :=
  exts.foldl (fun acc e => if acc.contains e then acc else acc ++ [e]) active

/-- `EagleSearchModal.toggleTypeCategory`.  `new Set(arr)` is modelled as
`arr.dedup` (same membership). -/
def toggleTypeCategory (x : ExtLists) (active : List String)
    (cat : FileTypeCategory) : List String :=
  let exts := getExtensionsForCategory x cat
  let isCurrentlyActive := isTypeCategoryActive x active cat
  match cat with
  | .all =>
    if isCurrentlyActive then x.images.dedup
    else (x.images ++ x.videos ++ x.documents).dedup
  | _ =>
    if isCurrentlyActive then
      let afterDel := setDeleteAll active exts
      if afterDel.length = 0 then setAddAll afterDel x.images else afterDel
    else
      setAddAll active exts

/-- Type-button click handler of
`CMDSPACEEagleSettingTab.renderSearchFiltersSettings`, for the category
whose extension list is `exts`: toggle on `hasAll` (every extension of
the category present), then reset to the image extensions if the stored
array became empty. -/
def settingsTypeClick (x : ExtLists) (fileTypes exts : List String) :
    List String :=
  let hasAll := exts.all (fun e => fileTypes.contains e)
  let ft :=
    if hasAll then fileTypes.filter (fun t => ¬ exts.contains t)
    else setAddAll fileTypes exts
  if ft.length = 0 then x.images else ft

/-! ## `ImagePasteChoiceModal` (C10)

Modal interaction is modelled as a list of user events processed in
order; the first closing event (a destination button click, or dismissal)
triggers `onClose`, which builds the resolved response.  We assume
`getResponse` was called, i.e. `resolvePromise` is set. -/

/-- The `choice` field of `ImagePasteChoiceResponse`; `localVault` is
named `local` in the source. -/
inductive PasteChoice where
  | eagle
  | localVault
  | cloud
  | cancel
deriving DecidableEq, Repr

/-- `ImagePasteChoiceResponse`. -/
structure PasteResponse where
  choice : PasteChoice
  rememberChoice : Bool
deriving DecidableEq, Repr

/-- User interactions with the open modal: the three destination
buttons, the remember toggle, and dismissal (Esc / click outside). -/
inductive PasteEvent where
  | clickEagle
  | clickLocal
  | clickCloud
  | toggleRemember (b : Bool)
  | dismiss
deriving DecidableEq, Repr

/-- The `response` field of the modal: `Partial<ImagePasteChoiceResponse>`
initialised to `{ rememberChoice: false }`. -/
structure PasteModalState where
  choice : Option PasteChoice
  rememberChoice : Bool
deriving DecidableEq

/-- Initial `response` state of `ImagePasteChoiceModal`. -/
def pasteInit : PasteModalState := ⟨none, false⟩

/-- One event handler step; the `Bool` says whether the handler calls
`this.close()` (dismissal also closes). -/
def pasteStep (st : PasteModalState) : PasteEvent → PasteModalState × Bool
  | .clickEagle => ({ st with choice := some .eagle }, true)
  | .clickLocal => ({ st with choice := some .localVault }, true)
  | .clickCloud => ({ st with choice := some .cloud }, true)
  | .toggleRemember b => ({ st with rememberChoice := b }, false)
  | .dismiss => (st, true)

/-- `onClose`: resolve with `choice` defaulted to `cancel` and
`rememberChoice` defaulted to `false` (the latter is always set). -/
def onCloseResponse (st : PasteModalState) : PasteResponse :=
  ⟨st.choice.getD .cancel, st.rememberChoice⟩

/-- Whether an event closes the modal. -/
def isClosingEvent : PasteEvent → Bool
  | .toggleRemember _ => false
  | _ => true

/-- Run the modal on an event list: the response resolved by the
promise from `getResponse`, or `none` if the modal never closed. -/
def runPasteModal (st : PasteModalState) :
    List PasteEvent → Option PasteResponse
  | [] => none
  | e :: rest =>
    let step := pasteStep st e
    if step.2 then some (onCloseResponse step.1)
    else runPasteModal step.1 rest

/-! ## `normalizeTag` (C4) -/

/-- The JS regex `\s` character class (ECMAScript WhiteSpace and
LineTerminator code points). -/
def isJsWs (c : Char) : Bool :=
  c = ' ' || c = '\t' || c = '\n' || c = '\r' ||
  c.toNat = 11 || c.toNat = 12 ||
  c.toNat = 0xa0 || c.toNat = 0x1680 ||
  (0x2000 ≤ c.toNat && c.toNat ≤ 0x200a) ||
  c.toNat = 0x2028 || c.toNat = 0x2029 || c.toNat = 0x202f ||
  c.toNat = 0x205f || c.toNat = 0x3000 || c.toNat = 0xfeff

/-- `tag.replace(/\s+/g, '-')`, one character at a time; the flag says
whether we are inside a whitespace run whose `'-'` was already
emitted. -/
def replaceWsAux : Bool → JStr → JStr
  | _, [] => []
  | inRun, c :: rest =>
    if isJsWs c then
      (if inRun then [] else ['-']) ++ replaceWsAux true rest
    else
      c :: replaceWsAux false rest

/-- `tag.replace(/\s+/g, '-')`. -/
def jsReplaceWsRuns (l : JStr) : JStr := replaceWsAux false l

/-- Charwise `String.prototype.toLowerCase()` (ASCII range as in the
Lean `Char.toLower`). -/
def jsToLower (l : JStr) : JStr := l.map Char.toLower

/-- The tag-related settings fields used by `normalizeTag`.
`tagNormalization` is compared against the string literal lowercase. -/
structure TagSettings where
  tagNormalization : String
  tagPrefix : JStr

/-- `EagleSearchModal.normalizeTag`. -/
def normalizeTag (s : TagSettings) (tag : JStr) : JStr :=
  let normalized := jsReplaceWsRuns tag
  let normalized :=
    if s.tagNormalization = "lowercase" then jsToLower normalized
    else normalized
  if s.tagPrefix ≠ [] then s.tagPrefix ++ '/' :: normalized
  else normalized

/-! ## Cloud provider settings handlers (C2)

Per-provider credential `onChange` handlers from `src/settings.ts`,
as a step function over the stored config record.  A JS string is truthy
iff non-empty, so `!!s` is modelled as `s ≠ []`. -/

/-- `String.prototype.trim()`; the trimmed set coincides with `\s`. -/
def jsTrim (s : JStr) : JStr :=
  ((s.dropWhile isJsWs).reverse.dropWhile isJsWs).reverse

/-- Removal of one trailing slash: the replace of the regex slash-end
with the empty string. -/
def stripTrailingSlash (s : JStr) : JStr :=
  if s.getLast? = some '/' then s.dropLast else s

/-- Worker-URL normalisation of the R2 `Worker URL` handler:
trim, prepend `https://` when non-empty and not starting with `http`,
strip one trailing slash. -/
def normalizeWorkerUrl (value : JStr) : JStr :=
  let url := jsTrim value
  let url :=
    if url ≠ [] ∧ ("http".toList.isPrefixOf url) = false then
      "https://".toList ++ url
    else url
  stripTrailingSlash url

/-- Stored `cloudProviders.r2` fields touched by the R2 settings UI. -/
structure R2Config where
  workerUrl : JStr
  apiKey : JStr
  publicUrl : JStr
  enabled : Bool
deriving DecidableEq

/-- One text-field edit in the R2 settings section. -/
inductive R2Edit where
  | setWorkerUrl (v : JStr)
  | setApiKey (v : JStr)
  | setPublicUrl (v : JStr)
deriving DecidableEq

/-- The R2 `onChange` handlers (`renderR2Settings`). -/
def r2Step (s : R2Config) : R2Edit → R2Config
  | .setWorkerUrl v =>
    let url := normalizeWorkerUrl v
    { s with workerUrl := url,
             enabled := decide (url ≠ [] ∧ s.apiKey ≠ []) }
  | .setApiKey v =>
    { s with apiKey := jsTrim v,
             enabled := decide (s.workerUrl ≠ [] ∧ jsTrim v ≠ []) }
  | .setPublicUrl v =>
    { s with publicUrl := stripTrailingSlash (jsTrim v) }

/-- Fold the R2 handlers over an edit sequence. -/
def r2Apply (s : R2Config) (es : List R2Edit) : R2Config :=
  es.foldl r2Step s

/-- R2 `enabled` agrees with "all required credentials non-empty". -/
def r2Synced (s : R2Config) : Prop :=
  s.enabled = true ↔ (s.workerUrl ≠ [] ∧ s.apiKey ≠ [])

/-- R2 edits that touch a required credential field. -/
def r2IsCredEdit : R2Edit → Prop
  | .setWorkerUrl _ => True
  | .setApiKey _ => True
  | .setPublicUrl _ => False

/-- Stored `cloudProviders.imghippo` fields. -/
structure ImgHippoConfig where
  apiKey : JStr
  enabled : Bool
deriving DecidableEq

/-- One text-field edit in the ImgHippo settings section. -/
inductive ImgHippoEdit where
  | setApiKey (v : JStr)
deriving DecidableEq

/-- The ImgHippo `onChange` handler (`renderImgHippoSettings`). -/
def imgHippoStep (s : ImgHippoConfig) : ImgHippoEdit → ImgHippoConfig
  | .setApiKey v =>
    { s with apiKey := jsTrim v, enabled := decide (jsTrim v ≠ []) }

/-- Fold the ImgHippo handler over an edit sequence. -/
def imgHippoApply (s : ImgHippoConfig) (es : List ImgHippoEdit) :
    ImgHippoConfig :=
  es.foldl imgHippoStep s

/-- ImgHippo `enabled` agrees with its required credential. -/
def imgHippoSynced (s : ImgHippoConfig) : Prop :=
  s.enabled = true ↔ s.apiKey ≠ []

/-- Stored `cloudProviders.s3` fields. -/
structure S3Config where
  endpoint : JStr
  region : JStr
  bucket : JStr
  accessKeyId : JStr
  secretAccessKey : JStr
  publicUrl : JStr
  enabled : Bool
deriving DecidableEq

/-- One text-field edit in the S3 settings section. -/
inductive S3Edit where
  | setEndpoint (v : JStr)
  | setRegion (v : JStr)
  | setBucket (v : JStr)
  | setAccessKeyId (v : JStr)
  | setSecretAccessKey (v : JStr)
  | setPublicUrl (v : JStr)
deriving DecidableEq

/-- The S3 `onChange` handlers (`renderS3Settings`).  Only the
secret-access-key handler recomputes `enabled`. -/
def s3Step (s : S3Config) : S3Edit → S3Config
  | .setEndpoint v => { s with endpoint := jsTrim v }
  | .setRegion v => { s with region := jsTrim v }
  | .setBucket v => { s with bucket := jsTrim v }
  | .setAccessKeyId v => { s with accessKeyId := jsTrim v }
  | .setSecretAccessKey v =>
    { s with secretAccessKey := jsTrim v,
             enabled := decide (s.endpoint ≠ [] ∧ s.accessKeyId ≠ []
               ∧ jsTrim v ≠ []) }
  | .setPublicUrl v => { s with publicUrl := jsTrim v }

/-- Fold the S3 handlers over an edit sequence. -/
def s3Apply (s : S3Config) (es : List S3Edit) : S3Config :=
  es.foldl s3Step s

/-- S3 `enabled` agrees with its required credentials (`endpoint`,
`accessKeyId`, `secretAccessKey` — the fields of its `enabled`
formula). -/
def s3Synced (s : S3Config) : Prop :=
  s.enabled = true ↔
    (s.endpoint ≠ [] ∧ s.accessKeyId ≠ [] ∧ s.secretAccessKey ≠ [])

/-- S3 edits whose handlers neither read nor write `enabled` or a
required credential. -/
def s3KeepsSync : S3Edit → Prop
  | .setRegion _ => True
  | .setBucket _ => True
  | .setPublicUrl _ => True
  | _ => False

/-- A closed edit sequence that desynchronises the S3 `enabled` flag:
fill every required field (last: the secret key, which sets `enabled`),
then blank the endpoint. -/
def s3DesyncDemo : S3Config :=
  s3Apply ⟨[], [], [], [], [], [], false⟩
    [S3Edit.setEndpoint ['e'], S3Edit.setAccessKeyId ['a'],
     S3Edit.setSecretAccessKey ['s'], S3Edit.setEndpoint []]

/-- Stored `cloudProviders.webdav` fields. -/
structure WebDAVConfig where
  serverUrl : JStr
  username : JStr
  password : JStr
  uploadPath : JStr
  publicUrl : JStr
  enabled : Bool
deriving DecidableEq

/-- One text-field edit in the WebDAV settings section. -/
inductive WebDAVEdit where
  | setServerUrl (v : JStr)
  | setUsername (v : JStr)
  | setPassword (v : JStr)
  | setUploadPath (v : JStr)
  | setPublicUrl (v : JStr)
deriving DecidableEq

/-- The WebDAV `onChange` handlers (`renderWebDAVSettings`).  The
password is stored untrimmed; only its handler recomputes `enabled`. -/
def webdavStep (s : WebDAVConfig) : WebDAVEdit → WebDAVConfig
  | .setServerUrl v => { s with serverUrl := jsTrim v }
  | .setUsername v => { s with username := jsTrim v }
  | .setPassword v =>
    { s with password := v,
             enabled := decide (s.serverUrl ≠ [] ∧ s.username ≠ []
               ∧ v ≠ []) }
  | .setUploadPath v =>
    { s with uploadPath :=
        if jsTrim v ≠ [] then jsTrim v else "/eagle-uploads".toList }
  | .setPublicUrl v => { s with publicUrl := jsTrim v }

/-- Fold the WebDAV handlers over an edit sequence. -/
def webdavApply (s : WebDAVConfig) (es : List WebDAVEdit) : WebDAVConfig :=
  es.foldl webdavStep s

/-- WebDAV `enabled` agrees with its required credentials. -/
def webdavSynced (s : WebDAVConfig) : Prop :=
  s.enabled = true ↔
    (s.serverUrl ≠ [] ∧ s.username ≠ [] ∧ s.password ≠ [])

/-- WebDAV edits whose handlers neither read nor write `enabled` or a
required credential. -/
def webdavKeepsSync : WebDAVEdit → Prop
  | .setUploadPath _ => True
  | .setPublicUrl _ => True
  | _ => False

/-- Stored `cloudProviders.custom` fields. -/
structure CustomConfig where
  uploadUrl : JStr
  publicUrl : JStr
  enabled : Bool
deriving DecidableEq

/-- One text-field edit in the custom-server settings section. -/
inductive CustomEdit where
  | setUploadUrl (v : JStr)
  | setPublicUrl (v : JStr)
deriving DecidableEq

/-- The custom-server `onChange` handlers (`renderCustomSettings`). -/
def customStep (s : CustomConfig) : CustomEdit → CustomConfig
  | .setUploadUrl v =>
    { s with uploadUrl := jsTrim v, enabled := decide (jsTrim v ≠ []) }
  | .setPublicUrl v => { s with publicUrl := jsTrim v }

/-- Fold the custom-server handlers over an edit sequence. -/
def customApply (s : CustomConfig) (es : List CustomEdit) : CustomConfig :=
  es.foldl customStep s

/-- Custom-server `enabled` agrees with its required credential. -/
def customSynced (s : CustomConfig) : Prop :=
  s.enabled = true ↔ s.uploadUrl ≠ []

/-- Custom edits that touch the required credential field. -/
def customIsCredEdit : CustomEdit → Prop
  | .setUploadUrl _ => True
  | .setPublicUrl _ => False

/-! ## `pathToFileUrl` (C5)

`encodeURIComponent` / `decodeURIComponent` modelled at codepoint level:
unreserved characters pass through, everything else becomes `%XX`
triples of its UTF-8 bytes; decoding parses `%XX` runs back into bytes
and UTF-8-decodes them. -/

/-- Characters `encodeURIComponent` leaves unescaped:
letters, digits, hyphen, underscore, dot, bang, tilde, star, apostrophe
and parentheses. -/
def isUnreservedURI (c : Char) : Bool :=
  ('A' ≤ c && c ≤ 'Z') || ('a' ≤ c && c ≤ 'z') || ('0' ≤ c && c ≤ '9') ||
  c = '-' || c = '_' || c = '.' || c = '!' || c = '~' || c = '*' ||
  c = Char.ofNat 39 || c = '(' || c = ')'

/-- UTF-8 encoding of one codepoint. -/
def utf8Bytes (c : Char) : List Nat :=
  let n := c.toNat
  if n < 0x80 then [n]
  else if n < 0x800 then [0xc0 + n / 64, 0x80 + n % 64]
  else if n < 0x10000 then
    [0xe0 + n / 4096, 0x80 + (n / 64) % 64, 0x80 + n % 64]
  else
    [0xf0 + n / 262144, 0x80 + (n / 4096) % 64, 0x80 + (n / 64) % 64,
      0x80 + n % 64]

/-- Uppercase hex digit, as emitted by `encodeURIComponent`. -/
def hexDigitChar (n : Nat) : Char :=
  if n < 10 then Char.ofNat (48 + n) else Char.ofNat (55 + n)

/-- `%XX` escape triples for a byte list. -/
def pctTriples (bs : List Nat) : JStr :=
  (bs.map (fun b => ['%', hexDigitChar (b / 16), hexDigitChar (b % 16)])).flatten

/-- `encodeURIComponent` on one character. -/
def pctEncodeChar (c : Char) : JStr :=
  if isUnreservedURI c then [c] else pctTriples (utf8Bytes c)

/-- `encodeURIComponent(segment)`. -/
def encodeURIComponent (s : JStr) : JStr :=
  (s.map pctEncodeChar).flatten

/-- `path.split('/')`. -/
def splitOnSlash : JStr → List JStr
  | [] => [[]]
  | c :: rest =>
    if c = '/' then [] :: splitOnSlash rest
    else
      match splitOnSlash rest with
      | [] => [[c]]
      | s :: ss => (c :: s) :: ss

/-- `segments.join('/')`. -/
def joinSlash : List JStr → JStr
  | [] => []
  | [s] => s
  | s :: rest => s ++ '/' :: joinSlash rest

/-- `EagleSearchModal.pathToFileUrl`:
`` `file://${path.split('/').map(encodeURIComponent).join('/')}` ``. -/
def pathToFileUrl (path : JStr) : JStr :=
  "file://".toList ++ joinSlash ((splitOnSlash path).map encodeURIComponent)

/-- Value of one hex digit (`decodeURIComponent` accepts both cases). -/
def hexVal (c : Char) : Option Nat :=
  if '0' ≤ c ∧ c ≤ '9' then some (c.toNat - 48)
  else if 'A' ≤ c ∧ c ≤ 'F' then some (c.toNat - 55)
  else if 'a' ≤ c ∧ c ≤ 'f' then some (c.toNat - 87)
  else none

/-- First decoding pass: literal characters stay characters, each `%XX`
becomes a byte; malformed escapes fail (JS `URIError`). -/
def pctTokens : JStr → Option (List (Sum Nat Char))
  | [] => some []
  | c :: rest =>
    if c = '%' then
      match rest with
      | h1 :: h2 :: rest' => do
        let v1 ← hexVal h1
        let v2 ← hexVal h2
        let ts ← pctTokens rest'
        pure (Sum.inl (16 * v1 + v2) :: ts)
      | _ => none
    else do
      let ts ← pctTokens rest
      pure (Sum.inr c :: ts)

/-- Second decoding pass: UTF-8-decode the byte runs, as a state machine
over the tokens.  The state carries the codepoint accumulated so far and
the number of continuation bytes still expected.  Lead bytes are
`C2..F4` and continuation bytes `80..BF`, as in `decodeURIComponent`
(the model is lenient on overlong/surrogate byte sequences, which never
arise from the encoder; malformed sequences fail like a `URIError`). -/
def utf8DecodeAux : Option (Nat × Nat) → List (Sum Nat Char) → Option JStr
  | none, [] => some []
  | some _, [] => none
  | none, .inr c :: rest => (utf8DecodeAux none rest).map (fun s => c :: s)
  | some _, .inr _ :: _ => none
  | none, .inl b :: rest =>
    if b < 0x80 then
      (utf8DecodeAux none rest).map (fun s => Char.ofNat b :: s)
    else if b < 0xc2 then none
    else if b < 0xe0 then utf8DecodeAux (some (b - 0xc0, 1)) rest
    else if b < 0xf0 then utf8DecodeAux (some (b - 0xe0, 2)) rest
    else if b < 0xf5 then utf8DecodeAux (some (b - 0xf0, 3)) rest
    else none
  | some (acc, k), .inl b :: rest =>
    if 0x80 ≤ b ∧ b < 0xc0 then
      if k = 1 then
        (utf8DecodeAux none rest).map
          (fun s => Char.ofNat (acc * 64 + (b - 0x80)) :: s)
      else utf8DecodeAux (some (acc * 64 + (b - 0x80), k - 1)) rest
    else none

/-- UTF-8-decode a whole token list. -/
def utf8DecodeTokens (ts : List (Sum Nat Char)) : Option JStr :=
  utf8DecodeAux none ts

/-- `decodeURIComponent(segment)` (`none` models a thrown `URIError`). -/
def decodeURIComponent (s : JStr) : Option JStr := do
  let ts ← pctTokens s
  utf8DecodeTokens ts

/-- The recovery procedure of the claim: strip the 7-character
`file://` prefix, split on `'/'`, percent-decode each segment, rejoin
with `'/'`. -/
def recoverPath (url : JStr) : Option JStr := do
  let decs ← (splitOnSlash (url.drop 7)).mapM decodeURIComponent
  pure (joinSlash decs)

/-- The token list `pctTokens` should produce for an encoded segment. -/
def uriTokens (s : JStr) : List (Sum Nat Char) :=
  (s.map (fun c =>
    if isUnreservedURI c then [Sum.inr c]
    else (utf8Bytes c).map Sum.inl)).flatten

/-! ## Theorems -/

theorem specRoundTenths_eq_div (n k : Nat) (hk : 0 < k) :
    specRoundTenths n (2 * k) = (10 * n + k) / (2 * k) := by
  unfold specRoundTenths
  have hcast : (10 * n : ℚ) / ((2 * k : Nat) : ℚ) + 1 / 2
      = ((10 * n + k : Nat) : ℚ) / ((2 * k : Nat) : ℚ) := by
    have hk0 : ((2 * k : Nat) : ℚ) ≠ 0 := by
      positivity
    field_simp
    ring
  rw [hcast, Nat.floor_div_nat, Nat.floor_natCast]

/-- C1: `getItems` returns exactly the loaded items whose lowercased
extension is in the active file-type set, in the order they appear in
`allItems` (order preservation stated as `Sublist`). -/
theorem getItems_filters_by_ext (st : SearchModalState) :
    (∀ it : EagleItem,
        it ∈ getItems st ↔ it ∈ st.allItems ∧ it.ext.toLower ∈ st.activeFileTypes)
    ∧ (getItems st).Sublist st.allItems := by
  constructor
  · intro it
    simp [getItems, List.mem_filter, List.contains, List.elem_iff]
  · exact List.filter_sublist _

/-- C3: `formatFileSize` agrees with the description in the claim: `"<n> B"`
for `n < 1024`, `"<n/1024 rounded to one decimal> KB"` for
`1024 ≤ n < 1048576`, and `"<n/1048576 rounded to one decimal> MB"`
otherwise. -/
theorem formatFileSize_eq_spec (n : Nat) :
    formatFileSize n = specFormatFileSize n := by
  unfold formatFileSize specFormatFileSize toFixed1 specTenthsString
  have h1 : specRoundTenths n 1024 = (10 * n + 512) / 1024 := by
    have := specRoundTenths_eq_div n 512 (by norm_num)
    norm_num at this ⊢
    exact this
  have h2 : specRoundTenths n 1048576 = (10 * n + 524288) / 1048576 := by
    have := specRoundTenths_eq_div n 524288 (by norm_num)
    norm_num at this ⊢
    exact this
  by_cases hb : n < 1024
  · simp [hb]
  · by_cases hk : n < 1024 * 1024
    · simp [hb, hk, h1]
    · have hk' : ¬ n < 1048576 := by omega
      simp [hb, hk, hk', h2]

/-- C6: when the item-listing request (`listItems`) throws, the exception
is caught: a user-facing notice is shown, `allItems` is unchanged, the
modal is not closed, and `isLoading` is cleared again. -/
theorem loadItems_listItems_error (env : LoadEnv) (st : SearchModalState)
    (hidle : st.isLoading = false)
    (hconn : env.isConnected = .ok true)
    (hlib : ∃ ln, env.getLibraryName = .ok ln)
    (herr : env.listItems = .error ()) :
    (loadItems env st).state.allItems = st.allItems
    ∧ (loadItems env st).notices = [loadFailedNotice]
    ∧ (loadItems env st).closed = false
    ∧ (loadItems env st).state.isLoading = false := by
  obtain ⟨ln, hlib⟩ := hlib
  simp [loadItems, hidle, hconn, hlib, herr]

/-- Closed instance of `loadItems_listItems_error`. -/
theorem loadItems_listItems_error_witness :
    (loadItems ⟨.ok true, .ok none, .error ()⟩
        ⟨[], false, ∅, []⟩).state.allItems = ([] : List EagleItem)
    ∧ (loadItems ⟨.ok true, .ok none, .error ()⟩
        ⟨[], false, ∅, []⟩).notices = [loadFailedNotice]
    ∧ (loadItems ⟨.ok true, .ok none, .error ()⟩
        ⟨[], false, ∅, []⟩).closed = false
    ∧ (loadItems ⟨.ok true, .ok none, .error ()⟩
        ⟨[], false, ∅, []⟩).state.isLoading = false :=
  loadItems_listItems_error ⟨.ok true, .ok none, .error ()⟩
    ⟨[], false, ∅, []⟩ rfl rfl ⟨none, rfl⟩ rfl

/-- C7: the `isLoading` guard makes loads single-flight: a call that
finds `isLoading` set returns at once, issues no request and changes no
state; a call that runs clears `isLoading` on every path, success or
throw. -/
theorem loadItems_single_flight (env : LoadEnv) (st : SearchModalState) :
    (st.isLoading = true →
      loadItems env st = ⟨st, [], false, 0⟩)
    ∧ (st.isLoading = false →
      (loadItems env st).state.isLoading = false) := by
  constructor
  · intro h
    simp [loadItems, h]
  · intro h
    unfold loadItems
    simp only [h]
    rcases env.isConnected with _ | connected
    · simp
    · rcases connected with _ | _
      · simp
      · rcases hln : env.getLibraryName with _ | ln
        · simp [hln]
        · rcases hli : env.listItems with _ | items
          · simp [hln, hli]
          · simp [hln, hli]

/-- Closed instance of `loadItems_single_flight`: a call made while a
load is in flight is a no-op, and a completed failing load ends with
`isLoading` cleared. -/
theorem loadItems_single_flight_witness :
    (loadItems ⟨.error (), .error (), .error ()⟩ ⟨[], true, ∅, []⟩
      = ⟨⟨[], true, ∅, []⟩, [], false, 0⟩)
    ∧ (loadItems ⟨.error (), .error (), .error ()⟩
        ⟨[], false, ∅, []⟩).state.isLoading = false :=
  ⟨(loadItems_single_flight ⟨.error (), .error (), .error ()⟩
      ⟨[], true, ∅, []⟩).1 rfl,
   (loadItems_single_flight ⟨.error (), .error (), .error ()⟩
      ⟨[], false, ∅, []⟩).2 rfl⟩

/-- C8: scope-button clicks keep the active scope set non-empty, in the
modal and in the settings tab, because a click that would deactivate the
last remaining scope is ignored. -/
theorem scopeClick_keeps_nonempty (active : Finset SearchScope)
    (scope : SearchScope) (scopes : List SearchScope) (key : SearchScope)
    (hA : active.Nonempty) (hL : scopes ≠ []) (hnd : scopes.Nodup) :
    (scopeClick active scope).Nonempty
    ∧ (scope ∈ active → active.card = 1 → scopeClick active scope = active)
    ∧ settingsScopeClick scopes key ≠ []
    ∧ (key ∈ scopes → scopes.length = 1 →
        settingsScopeClick scopes key = scopes) := by
  refine ⟨?_, ?_, ?_, ?_⟩
  · unfold scopeClick
    by_cases hmem : scope ∈ active
    · simp only [hmem, if_true]
      by_cases hcard : 1 < active.card
      · simp only [hcard, if_true]
        rw [← Finset.card_pos, Finset.card_erase_of_mem hmem]
        omega
      · simpa [hcard] using hA
    · simp [hmem, Finset.insert_nonempty]
  · intro hmem hcard
    simp [scopeClick, hmem, hcard]
  · unfold settingsScopeClick
    by_cases hmem : key ∈ scopes
    · simp only [hmem, if_true]
      by_cases hlen : 1 < scopes.length
      · simp only [hlen, if_true]
        have hx : ∃ x ∈ scopes, x ≠ key := by
          match scopes, hnd, hlen with
          | a :: b :: t, hnd, _ =>
            by_cases ha : a = key
            · refine ⟨b, by simp, ?_⟩
              intro hb
              have : a ∈ b :: t := by
                rw [ha, ← hb]
                simp
              exact (List.nodup_cons.mp hnd).1 this
            · exact ⟨a, by simp, ha⟩
        obtain ⟨x, hxmem, hxne⟩ := hx
        have : x ∈ scopes.filter (fun s => s ≠ key) := by
          simp [List.mem_filter, hxmem, hxne]
        exact List.ne_nil_of_mem this
      · simpa [hlen] using hL
    · simp [hmem]
  · intro hmem hlen
    simp [settingsScopeClick, hmem, hlen]

/-- Closed instance of `scopeClick_keeps_nonempty` at a singleton scope
set: clicking the last active scope leaves it active. -/
theorem scopeClick_keeps_nonempty_witness :
    (scopeClick {SearchScope.name} SearchScope.name).Nonempty
    ∧ (SearchScope.name ∈ ({SearchScope.name} : Finset SearchScope) →
        ({SearchScope.name} : Finset SearchScope).card = 1 →
        scopeClick {SearchScope.name} SearchScope.name = {SearchScope.name})
    ∧ settingsScopeClick [SearchScope.name] SearchScope.name ≠ []
    ∧ (SearchScope.name ∈ [SearchScope.name] →
        [SearchScope.name].length = 1 →
        settingsScopeClick [SearchScope.name] SearchScope.name
          = [SearchScope.name]) :=
  scopeClick_keeps_nonempty {SearchScope.name} SearchScope.name
    [SearchScope.name] SearchScope.name
    ⟨SearchScope.name, by simp⟩ (by simp) (by simp)

theorem setAddAll_ne_nil (exts : List String) (active : List String)
    (h : active ≠ []) : setAddAll active exts ≠ [] := by
  induction exts generalizing active with
  | nil => simpa [setAddAll] using h
  | cons e r ih =>
    show setAddAll active (e :: r) ≠ []
    unfold setAddAll
    rw [List.foldl_cons]
    apply ih
    split
    · exact h
    · simp

theorem setAddAll_nil_cons_ne_nil (e : String) (r : List String) :
    setAddAll [] (e :: r) ≠ [] := by
  unfold setAddAll
  rw [List.foldl_cons]
  exact setAddAll_ne_nil r _ (by simp)

/-- C9: the active file-type set never becomes empty (given that the
image-extension list is non-empty, as it is in `src/types.ts`): every
category toggle in the modal preserves non-emptiness, turning `all` off
resets the set to exactly the image extensions, and every type-button
click in the settings tab leaves a non-empty array. -/
theorem toggleTypeCategory_keeps_nonempty (x : ExtLists)
    (active : List String) (cat : FileTypeCategory)
    (fileTypes exts : List String)
    (himg : x.images ≠ []) (hA : active ≠ []) :
    toggleTypeCategory x active cat ≠ []
    ∧ (isTypeCategoryActive x active .all = true →
        toggleTypeCategory x active .all = x.images.dedup)
    ∧ settingsTypeClick x fileTypes exts ≠ [] := by
  obtain ⟨e, r, he⟩ : ∃ e r, x.images = e :: r := by
    rcases hx : x.images with _ | ⟨e, r⟩
    · exact absurd hx himg
    · exact ⟨e, r, rfl⟩
  have hdedup : x.images.dedup ≠ [] := by
    simpa [List.dedup_eq_nil] using himg
  refine ⟨?_, ?_, ?_⟩
  · cases cat with
    | all =>
      unfold toggleTypeCategory
      by_cases hact : isTypeCategoryActive x active .all
      · simpa [hact] using hdedup
      · simp only [hact]
        simp [List.dedup_eq_nil, himg]
    | images =>
      unfold toggleTypeCategory
      by_cases hact : isTypeCategoryActive x active .images
      · simp only [hact, if_true]
        by_cases hz : (setDeleteAll active x.images).length = 0
        · simp only [getExtensionsForCategory, hz, if_true]
          have : setDeleteAll active x.images = [] := by
            simpa using hz
          rw [this, he]
          exact setAddAll_nil_cons_ne_nil e r
        · simp only [getExtensionsForCategory, hz, if_false]
          intro hnil
          exact hz (by simp [hnil])
      · simp only [hact, Bool.false_eq_true, if_false]
        exact setAddAll_ne_nil _ _ hA
    | videos =>
      unfold toggleTypeCategory
      by_cases hact : isTypeCategoryActive x active .videos
      · simp only [hact, if_true]
        by_cases hz : (setDeleteAll active x.videos).length = 0
        · simp only [getExtensionsForCategory, hz, if_true]
          have : setDeleteAll active x.videos = [] := by
            simpa using hz
          rw [this, he]
          exact setAddAll_nil_cons_ne_nil e r
        · simp only [getExtensionsForCategory, hz, if_false]
          intro hnil
          exact hz (by simp [hnil])
      · simp only [hact, Bool.false_eq_true, if_false]
        exact setAddAll_ne_nil _ _ hA
    | documents =>
      unfold toggleTypeCategory
      by_cases hact : isTypeCategoryActive x active .documents
      · simp only [hact, if_true]
        by_cases hz : (setDeleteAll active x.documents).length = 0
        · simp only [getExtensionsForCategory, hz, if_true]
          have : setDeleteAll active x.documents = [] := by
            simpa using hz
          rw [this, he]
          exact setAddAll_nil_cons_ne_nil e r
        · simp only [getExtensionsForCategory, hz, if_false]
          intro hnil
          exact hz (by simp [hnil])
      · simp only [hact, Bool.false_eq_true, if_false]
        exact setAddAll_ne_nil _ _ hA
  · intro hact
    simp [toggleTypeCategory, hact]
  · unfold settingsTypeClick
    dsimp only
    split
    · split
      · exact himg
      · next h2 =>
        intro hnil
        exact h2 (by rw [hnil]; rfl)
    · split
      · exact himg
      · next h2 =>
        intro hnil
        exact h2 (by rw [hnil]; rfl)

/-- Closed instance of `toggleTypeCategory_keeps_nonempty` at sample
extension lists. -/
theorem toggleTypeCategory_keeps_nonempty_witness :
    toggleTypeCategory ⟨["png"], ["mp4"], ["pdf"]⟩ ["png"] .images ≠ []
    ∧ (isTypeCategoryActive ⟨["png"], ["mp4"], ["pdf"]⟩ ["png"] .all = true →
        toggleTypeCategory ⟨["png"], ["mp4"], ["pdf"]⟩ ["png"] .all
          = (["png"] : List String).dedup)
    ∧ settingsTypeClick ⟨["png"], ["mp4"], ["pdf"]⟩ ["png"] ["png"] ≠ [] :=
  toggleTypeCategory_keeps_nonempty ⟨["png"], ["mp4"], ["pdf"]⟩ ["png"]
    .images ["png"] ["png"] (by simp) (by simp)

theorem runPasteModal_isSome (evs : List PasteEvent) (st : PasteModalState)
    (h : ∃ e ∈ evs, isClosingEvent e = true) :
    ∃ r, runPasteModal st evs = some r := by
  induction evs generalizing st with
  | nil => simp at h
  | cons e rest ih =>
    by_cases hc : isClosingEvent e = true
    · cases e <;> simp_all [runPasteModal, pasteStep, isClosingEvent]
    · obtain ⟨b, hb⟩ : ∃ b, e = .toggleRemember b := by
        cases e <;> simp_all [isClosingEvent]
      subst hb
      simp only [runPasteModal, pasteStep]
      apply ih
      obtain ⟨e', he', hce⟩ := h
      rcases List.mem_cons.mp he' with h1 | h1
      · subst h1
        simp [isClosingEvent] at hce
      · exact ⟨e', h1, hce⟩

theorem runPasteModal_cancel (evs : List PasteEvent) (st : PasteModalState)
    (hchoice : st.choice = none)
    (hev : ∀ e ∈ evs, e = .dismiss ∨ ∃ b, e = .toggleRemember b) :
    ∀ r, runPasteModal st evs = some r → r.choice = .cancel := by
  induction evs generalizing st with
  | nil => simp [runPasteModal]
  | cons e rest ih =>
    intro r hr
    rcases hev e (by simp) with h1 | ⟨b, h1⟩ <;> subst h1
    · simp only [runPasteModal, pasteStep, if_true] at hr
      cases hr
      simp [onCloseResponse, hchoice]
    · simp only [runPasteModal, pasteStep, Bool.false_eq_true, if_false] at hr
      exact ih { choice := st.choice, rememberChoice := b } hchoice
        (fun e' he' => hev e' (by simp [he'])) r hr

theorem runPasteModal_remember_false (evs : List PasteEvent)
    (st : PasteModalState) (hrem : st.rememberChoice = false)
    (hev : ∀ e ∈ evs, ∀ b, e ≠ .toggleRemember b) :
    ∀ r, runPasteModal st evs = some r → r.rememberChoice = false := by
  induction evs generalizing st with
  | nil => simp [runPasteModal]
  | cons e rest ih =>
    intro r hr
    cases e with
    | toggleRemember b => exact absurd rfl (hev _ (by simp) b)
    | clickEagle =>
      simp only [runPasteModal, pasteStep, if_true] at hr
      cases hr
      simpa [onCloseResponse] using hrem
    | clickLocal =>
      simp only [runPasteModal, pasteStep, if_true] at hr
      cases hr
      simpa [onCloseResponse] using hrem
    | clickCloud =>
      simp only [runPasteModal, pasteStep, if_true] at hr
      cases hr
      simpa [onCloseResponse] using hrem
    | dismiss =>
      simp only [runPasteModal, pasteStep, if_true] at hr
      cases hr
      simpa [onCloseResponse] using hrem

/-- C10: if any event closes the modal, the promise from `getResponse`
resolves; if the modal is dismissed without a destination-button click
the resolved choice is `cancel`; and `rememberChoice` is `false` when
the toggle was never switched. -/
theorem pasteModal_always_resolves (evs : List PasteEvent)
    (hclose : ∃ e ∈ evs, isClosingEvent e = true) :
    (∃ r, runPasteModal pasteInit evs = some r)
    ∧ ((∀ e ∈ evs, e = .dismiss ∨ ∃ b, e = .toggleRemember b) →
        ∀ r, runPasteModal pasteInit evs = some r → r.choice = .cancel)
    ∧ ((∀ e ∈ evs, ∀ b, e ≠ .toggleRemember b) →
        ∀ r, runPasteModal pasteInit evs = some r →
          r.rememberChoice = false) :=
  ⟨runPasteModal_isSome evs pasteInit hclose,
   fun hev => runPasteModal_cancel evs pasteInit rfl hev,
   fun hev => runPasteModal_remember_false evs pasteInit rfl hev⟩

/-- Closed instance of `pasteModal_always_resolves`: dismissing the
modal immediately resolves with `cancel` and `rememberChoice = false`. -/
theorem pasteModal_always_resolves_witness :
    (∃ r, runPasteModal pasteInit [PasteEvent.dismiss] = some r)
    ∧ ((∀ e ∈ [PasteEvent.dismiss],
          e = .dismiss ∨ ∃ b, e = .toggleRemember b) →
        ∀ r, runPasteModal pasteInit [PasteEvent.dismiss] = some r →
          r.choice = .cancel)
    ∧ ((∀ e ∈ [PasteEvent.dismiss], ∀ b, e ≠ .toggleRemember b) →
        ∀ r, runPasteModal pasteInit [PasteEvent.dismiss] = some r →
          r.rememberChoice = false) :=
  pasteModal_always_resolves [PasteEvent.dismiss]
    ⟨PasteEvent.dismiss, by simp, rfl⟩

theorem replaceWsAux_true_of_ws_run (run l : JStr)
    (hws : ∀ c ∈ run, isJsWs c = true) :
    replaceWsAux true (run ++ l) = replaceWsAux true l := by
  induction run with
  | nil => rfl
  | cons c rest ih =>
    have hc : isJsWs c = true := hws c (by simp)
    simp only [List.cons_append, replaceWsAux, hc, if_true, List.nil_append]
    exact ih (fun c' hc' => hws c' (by simp [hc']))

theorem replaceWsAux_true_eq_false (l : JStr)
    (hl : ∀ c, l.head? = some c → isJsWs c = false) :
    replaceWsAux true l = replaceWsAux false l := by
  cases l with
  | nil => rfl
  | cons c rest =>
    have hc : isJsWs c = false := hl c rfl
    simp [replaceWsAux, hc]

/-- C4: `normalizeTag` first replaces each maximal whitespace run with a
single hyphen (a non-whitespace head passes through; a leading
whitespace run followed by a non-whitespace character, or nothing,
becomes one `'-'`; whitespace-free strings are unchanged), then
lowercases exactly when `tagNormalization` is lowercase, and finally
prepends `tagPrefix ++ "/"` exactly when `tagPrefix` is non-empty. -/
theorem normalizeTag_spec (s : TagSettings) (tag : JStr) :
    (∀ c l, isJsWs c = false →
        jsReplaceWsRuns (c :: l) = c :: jsReplaceWsRuns l)
    ∧ (∀ run l, run ≠ [] → (∀ c ∈ run, isJsWs c = true) →
        (∀ c, l.head? = some c → isJsWs c = false) →
        jsReplaceWsRuns (run ++ l) = '-' :: jsReplaceWsRuns l)
    ∧ (∀ l : JStr, (∀ c ∈ l, isJsWs c = false) → jsReplaceWsRuns l = l)
    ∧ normalizeTag s tag =
        (if s.tagPrefix ≠ [] then s.tagPrefix ++ ['/'] else [])
          ++ (if s.tagNormalization = "lowercase" then
                jsToLower (jsReplaceWsRuns tag)
              else jsReplaceWsRuns tag) := by
  refine ⟨?_, ?_, ?_, ?_⟩
  · intro c l hc
    simp [jsReplaceWsRuns, replaceWsAux, hc]
  · intro run l hne hws hl
    match run, hne with
    | c :: rest, _ =>
      have hc : isJsWs c = true := hws c (by simp)
      show replaceWsAux false ((c :: rest) ++ l) = '-' :: replaceWsAux false l
      simp only [List.cons_append, replaceWsAux, hc, if_true,
        Bool.false_eq_true, if_false, List.singleton_append, List.append_eq]
      rw [replaceWsAux_true_of_ws_run rest l
        (fun c' hc' => hws c' (by simp [hc'])),
        replaceWsAux_true_eq_false l hl]
      simp
  · intro l hl
    induction l with
    | nil => rfl
    | cons c rest ih =>
      have hc : isJsWs c = false := hl c (by simp)
      have := ih (fun c' hc' => hl c' (by simp [hc']))
      simp only [jsReplaceWsRuns, replaceWsAux, hc] at this ⊢
      simp [this]
  · unfold normalizeTag
    by_cases hp : s.tagPrefix ≠ [] <;>
      by_cases hn : s.tagNormalization = "lowercase" <;>
        simp [hp, hn]

/-- Closed instance of `normalizeTag_spec`: a leading space run becomes
one hyphen, and the prefix/lowercase pipeline at concrete settings. -/
theorem normalizeTag_spec_witness :
    jsReplaceWsRuns ([' ', ' '] ++ ['a']) = '-' :: jsReplaceWsRuns ['a']
    ∧ normalizeTag ⟨"lowercase", ['t']⟩ ['A'] =
        (if (['t'] : JStr) ≠ [] then ['t'] ++ ['/'] else [])
          ++ (if ("lowercase" : String) = "lowercase" then
                jsToLower (jsReplaceWsRuns ['A'])
              else jsReplaceWsRuns ['A']) :=
  ⟨(normalizeTag_spec ⟨"lowercase", ['t']⟩ ['A']).2.1 [' ', ' '] ['a']
      (by simp) (by decide) (by intro c hc; cases hc; decide),
   (normalizeTag_spec ⟨"lowercase", ['t']⟩ ['A']).2.2.2⟩

theorem r2Step_establishes (s : R2Config) (e : R2Edit)
    (h : r2IsCredEdit e) : r2Synced (r2Step s e) := by
  cases e with
  | setWorkerUrl v => simp [r2Step, r2Synced]
  | setApiKey v => simp [r2Step, r2Synced]
  | setPublicUrl v => exact absurd h (by simp [r2IsCredEdit])

theorem r2Step_preserves (s : R2Config) (e : R2Edit)
    (h : r2Synced s) : r2Synced (r2Step s e) := by
  cases e with
  | setWorkerUrl v => simp [r2Step, r2Synced]
  | setApiKey v => simp [r2Step, r2Synced]
  | setPublicUrl v => simpa [r2Step, r2Synced] using h

theorem r2Apply_preserves (es : List R2Edit) (s : R2Config)
    (h : r2Synced s) : r2Synced (r2Apply s es) := by
  induction es generalizing s with
  | nil => exact h
  | cons e rest ih =>
    exact ih (r2Step s e) (r2Step_preserves s e h)

theorem r2Apply_synced (es : List R2Edit) (s : R2Config)
    (h : ∃ e ∈ es, r2IsCredEdit e) : r2Synced (r2Apply s es) := by
  induction es generalizing s with
  | nil => simp at h
  | cons e rest ih =>
    by_cases hc : r2IsCredEdit e
    · exact r2Apply_preserves rest (r2Step s e) (r2Step_establishes s e hc)
    · obtain ⟨e', he', hc'⟩ := h
      rcases List.mem_cons.mp he' with h1 | h1
      · exact absurd (h1 ▸ hc') hc
      · exact ih (r2Step s e) ⟨e', h1, hc'⟩

theorem imgHippoApply_synced (es : List ImgHippoEdit) (s : ImgHippoConfig)
    (h : es ≠ []) : imgHippoSynced (imgHippoApply s es) := by
  induction es generalizing s with
  | nil => exact absurd rfl h
  | cons e rest ih =>
    cases rest with
    | nil =>
      cases e with
      | setApiKey v => simp [imgHippoApply, imgHippoStep, imgHippoSynced]
    | cons e' rest' =>
      show imgHippoSynced (imgHippoApply (imgHippoStep s e) (e' :: rest'))
      exact ih (imgHippoStep s e) (by simp)

theorem customStep_establishes (s : CustomConfig) (e : CustomEdit)
    (h : customIsCredEdit e) : customSynced (customStep s e) := by
  cases e with
  | setUploadUrl v => simp [customStep, customSynced]
  | setPublicUrl v => exact absurd h (by simp [customIsCredEdit])

theorem customStep_preserves (s : CustomConfig) (e : CustomEdit)
    (h : customSynced s) : customSynced (customStep s e) := by
  cases e with
  | setUploadUrl v => simp [customStep, customSynced]
  | setPublicUrl v => simpa [customStep, customSynced] using h

theorem customApply_preserves (es : List CustomEdit) (s : CustomConfig)
    (h : customSynced s) : customSynced (customApply s es) := by
  induction es generalizing s with
  | nil => exact h
  | cons e rest ih =>
    exact ih (customStep s e) (customStep_preserves s e h)

theorem customApply_synced (es : List CustomEdit) (s : CustomConfig)
    (h : ∃ e ∈ es, customIsCredEdit e) : customSynced (customApply s es) := by
  induction es generalizing s with
  | nil => simp at h
  | cons e rest ih =>
    by_cases hc : customIsCredEdit e
    · exact customApply_preserves rest (customStep s e)
        (customStep_establishes s e hc)
    · obtain ⟨e', he', hc'⟩ := h
      rcases List.mem_cons.mp he' with h1 | h1
      · exact absurd (h1 ▸ hc') hc
      · exact ih (customStep s e) ⟨e', h1, hc'⟩

theorem s3Step_secret_establishes (s : S3Config) (v : JStr) :
    s3Synced (s3Step s (S3Edit.setSecretAccessKey v)) := by
  simp [s3Step, s3Synced, and_assoc]

theorem s3Step_keepsSync_preserves (s : S3Config) (e : S3Edit)
    (hk : s3KeepsSync e) (h : s3Synced s) : s3Synced (s3Step s e) := by
  cases e with
  | setRegion v => simpa [s3Step, s3Synced] using h
  | setBucket v => simpa [s3Step, s3Synced] using h
  | setPublicUrl v => simpa [s3Step, s3Synced] using h
  | setEndpoint v => exact absurd hk (by simp [s3KeepsSync])
  | setAccessKeyId v => exact absurd hk (by simp [s3KeepsSync])
  | setSecretAccessKey v => exact absurd hk (by simp [s3KeepsSync])

theorem s3Apply_keepsSync (es : List S3Edit) (s : S3Config)
    (hk : ∀ e ∈ es, s3KeepsSync e) (h : s3Synced s) :
    s3Synced (s3Apply s es) := by
  induction es generalizing s with
  | nil => exact h
  | cons e rest ih =>
    exact ih (s3Step s e) (fun e' he' => hk e' (by simp [he']))
      (s3Step_keepsSync_preserves s e (hk e (by simp)) h)

theorem webdavStep_password_establishes (s : WebDAVConfig) (v : JStr) :
    webdavSynced (webdavStep s (WebDAVEdit.setPassword v)) := by
  simp [webdavStep, webdavSynced, and_assoc]

theorem webdavStep_keepsSync_preserves (s : WebDAVConfig) (e : WebDAVEdit)
    (hk : webdavKeepsSync e) (h : webdavSynced s) :
    webdavSynced (webdavStep s e) := by
  cases e with
  | setUploadPath v => simpa [webdavStep, webdavSynced] using h
  | setPublicUrl v => simpa [webdavStep, webdavSynced] using h
  | setServerUrl v => exact absurd hk (by simp [webdavKeepsSync])
  | setUsername v => exact absurd hk (by simp [webdavKeepsSync])
  | setPassword v => exact absurd hk (by simp [webdavKeepsSync])

theorem webdavApply_keepsSync (es : List WebDAVEdit) (s : WebDAVConfig)
    (hk : ∀ e ∈ es, webdavKeepsSync e) (h : webdavSynced s) :
    webdavSynced (webdavApply s es) := by
  induction es generalizing s with
  | nil => exact h
  | cons e rest ih =>
    exact ih (webdavStep s e) (fun e' he' => hk e' (by simp [he']))
      (webdavStep_keepsSync_preserves s e (hk e (by simp)) h)

/-- C2 counterexample: for S3, fill endpoint, access-key id and secret
key (the secret-key edit sets `enabled`), then blank the endpoint: the
final state has `enabled = true` although the required `endpoint`
credential is empty, so `enabled` is not equivalent to "all required
credentials non-empty" after this credential-edit sequence. -/
theorem s3_enabled_desync :
    s3DesyncDemo.enabled = true ∧ s3DesyncDemo.endpoint = [] := by
  constructor <;> rfl

/-- C2 amended: `enabled` equals "all required credentials non-empty"
after an edit sequence for R2, ImgHippo and Custom whenever the sequence
contains a credential-field edit; for S3 and WebDAV only the
secret-access-key (resp. password) handler recomputes `enabled`, so the
equivalence holds exactly for sequences whose edits after the last
secret-key (resp. password) edit keep clear of the other required
credential fields. -/
theorem cloudProviders_enabled_sync (r2 : R2Config) (r2es : List R2Edit)
    (ihc : ImgHippoConfig) (ihes : List ImgHippoEdit)
    (cu : CustomConfig) (cues : List CustomEdit)
    (s3 : S3Config) (pre : List S3Edit) (sv : JStr) (post : List S3Edit)
    (wd : WebDAVConfig) (wpre : List WebDAVEdit) (pv : JStr)
    (wpost : List WebDAVEdit)
    (hr2 : ∃ e ∈ r2es, r2IsCredEdit e)
    (hih : ihes ≠ [])
    (hcu : ∃ e ∈ cues, customIsCredEdit e)
    (hs3 : ∀ e ∈ post, s3KeepsSync e)
    (hwd : ∀ e ∈ wpost, webdavKeepsSync e) :
    r2Synced (r2Apply r2 r2es)
    ∧ imgHippoSynced (imgHippoApply ihc ihes)
    ∧ customSynced (customApply cu cues)
    ∧ s3Synced (s3Apply s3 (pre ++ S3Edit.setSecretAccessKey sv :: post))
    ∧ webdavSynced
        (webdavApply wd (wpre ++ WebDAVEdit.setPassword pv :: wpost)) := by
  refine ⟨r2Apply_synced r2es r2 hr2, imgHippoApply_synced ihes ihc hih,
    customApply_synced cues cu hcu, ?_, ?_⟩
  · have : s3Apply s3 (pre ++ S3Edit.setSecretAccessKey sv :: post)
        = s3Apply (s3Step (s3Apply s3 pre) (S3Edit.setSecretAccessKey sv))
            post := by
      simp [s3Apply, List.foldl_append]
    rw [this]
    exact s3Apply_keepsSync post _ hs3
      (s3Step_secret_establishes (s3Apply s3 pre) sv)
  · have : webdavApply wd (wpre ++ WebDAVEdit.setPassword pv :: wpost)
        = webdavApply
            (webdavStep (webdavApply wd wpre) (WebDAVEdit.setPassword pv))
            wpost := by
      simp [webdavApply, List.foldl_append]
    rw [this]
    exact webdavApply_keepsSync wpost _ hwd
      (webdavStep_password_establishes (webdavApply wd wpre) pv)

/-- Closed instance of `cloudProviders_enabled_sync`: one credential
edit per provider, from blank configs. -/
theorem cloudProviders_enabled_sync_witness :
    r2Synced (r2Apply ⟨[], [], [], false⟩ [R2Edit.setApiKey ['k']])
    ∧ imgHippoSynced
        (imgHippoApply ⟨[], false⟩ [ImgHippoEdit.setApiKey ['k']])
    ∧ customSynced
        (customApply ⟨[], [], false⟩ [CustomEdit.setUploadUrl ['u']])
    ∧ s3Synced (s3Apply ⟨[], [], [], [], [], [], false⟩
        ([] ++ S3Edit.setSecretAccessKey ['s'] :: []))
    ∧ webdavSynced (webdavApply ⟨[], [], [], [], [], false⟩
        ([] ++ WebDAVEdit.setPassword ['p'] :: [])) :=
  cloudProviders_enabled_sync ⟨[], [], [], false⟩ [R2Edit.setApiKey ['k']]
    ⟨[], false⟩ [ImgHippoEdit.setApiKey ['k']]
    ⟨[], [], false⟩ [CustomEdit.setUploadUrl ['u']]
    ⟨[], [], [], [], [], [], false⟩ [] ['s'] []
    ⟨[], [], [], [], [], false⟩ [] ['p'] []
    ⟨R2Edit.setApiKey ['k'], by simp, trivial⟩
    (by simp)
    ⟨CustomEdit.setUploadUrl ['u'], by simp, trivial⟩
    (by simp)
    (by simp)

theorem char_toNat_lt_1114112 (c : Char) : c.toNat < 1114112 := by
  rcases c.valid with h | ⟨_, h⟩
  · have h' : c.val.toNat < (55296 : UInt32).toNat := h
    have : ((55296 : UInt32)).toNat = 55296 := rfl
    simp only [Char.toNat]
    omega
  · have h' : c.val.toNat < (1114112 : UInt32).toNat := h
    have : ((1114112 : UInt32)).toNat = 1114112 := rfl
    simp only [Char.toNat]
    omega

theorem hexVal_hexDigitChar : ∀ n, n < 16 → hexVal (hexDigitChar n) = some n := by
  decide

theorem hexDigitChar_ne_slash : ∀ n, n < 16 → hexDigitChar n ≠ '/' := by
  decide

theorem hexDigitChar_ne_pct : ∀ n, n < 16 → hexDigitChar n ≠ '%' := by
  decide

theorem utf8Bytes_lt_256 (c : Char) : ∀ b ∈ utf8Bytes c, b < 256 := by
  have h := char_toNat_lt_1114112 c
  intro b hb
  unfold utf8Bytes at hb
  by_cases h1 : c.toNat < 0x80
  · simp [h1] at hb
    omega
  · by_cases h2 : c.toNat < 0x800
    · simp [h1, h2] at hb
      rcases hb with hb | hb <;> omega
    · by_cases h3 : c.toNat < 0x10000
      · simp [h1, h2, h3] at hb
        rcases hb with hb | hb | hb <;> omega
      · simp [h1, h2, h3] at hb
        rcases hb with hb | hb | hb | hb <;> omega

theorem pctTokens_cons_notpct (c : Char) (rest : JStr) (hc : ¬ c = '%') :
    pctTokens (c :: rest)
      = (pctTokens rest).map (fun ts => Sum.inr c :: ts) := by
  rw [pctTokens.eq_def]
  simp only [if_neg hc]
  cases pctTokens rest <;> simp

theorem pctTokens_triples (bs : List Nat) (rest : JStr)
    (hb : ∀ b ∈ bs, b < 256) :
    pctTokens (pctTriples bs ++ rest)
      = (pctTokens rest).map (fun ts => bs.map Sum.inl ++ ts) := by
  induction bs with
  | nil => cases h : pctTokens rest <;> simp [pctTriples, h]
  | cons b bs' ih =>
    have hb0 : b < 256 := hb b (by simp)
    have e1 : hexVal (hexDigitChar (b / 16)) = some (b / 16) :=
      hexVal_hexDigitChar _ (by omega)
    have e2 : hexVal (hexDigitChar (b % 16)) = some (b % 16) :=
      hexVal_hexDigitChar _ (by omega)
    have hbeq : 16 * (b / 16) + b % 16 = b := by omega
    have ih' := ih (fun b' hb' => hb b' (by simp [hb']))
    rw [show pctTriples (b :: bs') ++ rest
        = '%' :: hexDigitChar (b / 16) :: hexDigitChar (b % 16)
          :: (pctTriples bs' ++ rest) from rfl]
    rw [show pctTokens ('%' :: hexDigitChar (b / 16)
          :: hexDigitChar (b % 16) :: (pctTriples bs' ++ rest))
        = (do
            let v1 ← hexVal (hexDigitChar (b / 16))
            let v2 ← hexVal (hexDigitChar (b % 16))
            let ts ← pctTokens (pctTriples bs' ++ rest)
            pure (Sum.inl (16 * v1 + v2) :: ts)) from by
      rw [pctTokens.eq_def]
      simp]
    rw [e1, e2, ih']
    cases pctTokens rest <;> simp [hbeq]

theorem unreserved_ne_pct (c : Char) (h : isUnreservedURI c = true) :
    ¬ c = '%' := by
  intro hc
  subst hc
  exact absurd h (by decide)

theorem pctTokens_encode_append (s rest : JStr) :
    pctTokens (encodeURIComponent s ++ rest)
      = (pctTokens rest).map (fun ts => uriTokens s ++ ts) := by
  induction s with
  | nil =>
    rw [show encodeURIComponent [] ++ rest = rest from by
      simp [encodeURIComponent]]
    cases pctTokens rest <;> simp [uriTokens]
  | cons c s' ih =>
    rw [show encodeURIComponent (c :: s')
        = pctEncodeChar c ++ encodeURIComponent s' from rfl,
      List.append_assoc]
    have hu : uriTokens (c :: s')
        = (if isUnreservedURI c then [Sum.inr c]
           else (utf8Bytes c).map Sum.inl) ++ uriTokens s' := rfl
    by_cases hc : isUnreservedURI c
    · rw [show pctEncodeChar c = [c] from by simp [pctEncodeChar, hc],
        List.singleton_append,
        pctTokens_cons_notpct c _ (unreserved_ne_pct c hc), ih]
      cases pctTokens rest <;> simp [hu, hc]
    · rw [show pctEncodeChar c = pctTriples (utf8Bytes c) from by
        simp [pctEncodeChar, hc],
        pctTokens_triples _ _ (utf8Bytes_lt_256 c), ih]
      cases pctTokens rest <;> simp [hu, hc]

theorem pctTokens_encode (s : JStr) :
    pctTokens (encodeURIComponent s) = some (uriTokens s) := by
  rw [show encodeURIComponent s = encodeURIComponent s ++ [] from
    (List.append_nil _).symm, pctTokens_encode_append]
  simp [pctTokens]

theorem utf8Decode_one (b : Nat) (h : b < 128)
    (rest : List (Sum Nat Char)) :
    utf8DecodeAux none (.inl b :: rest)
      = (utf8DecodeAux none rest).map (fun s => Char.ofNat b :: s) := by
  simp [utf8DecodeAux, h]

theorem utf8Decode_two (n : Nat) (h1 : 128 ≤ n) (h2 : n < 2048)
    (rest : List (Sum Nat Char)) :
    utf8DecodeAux none (.inl (0xc0 + n / 64) :: .inl (0x80 + n % 64) :: rest)
      = (utf8DecodeAux none rest).map (fun s => Char.ofNat n :: s) := by
  have hb1 : ¬ (0xc0 + n / 64 < 0x80) := by omega
  have hb2 : ¬ (0xc0 + n / 64 < 0xc2) := by omega
  have hb3 : 0xc0 + n / 64 < 0xe0 := by omega
  have hg : 0x80 ≤ 0x80 + n % 64 ∧ 0x80 + n % 64 < 0xc0 := by
    constructor <;> omega
  have hcp : (0xc0 + n / 64 - 0xc0) * 64 + (0x80 + n % 64 - 0x80) = n := by
    omega
  rw [show utf8DecodeAux none (.inl (0xc0 + n / 64)
        :: .inl (0x80 + n % 64) :: rest)
      = utf8DecodeAux (some (0xc0 + n / 64 - 0xc0, 1))
          (.inl (0x80 + n % 64) :: rest) from by
    simp only [utf8DecodeAux, if_neg hb1, if_neg hb2, if_pos hb3]]
  simp only [utf8DecodeAux, if_pos hg, if_pos rfl, hcp]
  simp

theorem utf8Decode_three (n : Nat) (h1 : 2048 ≤ n) (h2 : n < 65536)
    (rest : List (Sum Nat Char)) :
    utf8DecodeAux none (.inl (0xe0 + n / 4096)
        :: .inl (0x80 + (n / 64) % 64) :: .inl (0x80 + n % 64) :: rest)
      = (utf8DecodeAux none rest).map (fun s => Char.ofNat n :: s) := by
  have hb1 : ¬ (0xe0 + n / 4096 < 0x80) := by omega
  have hb2 : ¬ (0xe0 + n / 4096 < 0xc2) := by omega
  have hb3 : ¬ (0xe0 + n / 4096 < 0xe0) := by omega
  have hb4 : 0xe0 + n / 4096 < 0xf0 := by omega
  have hg1 : 0x80 ≤ 0x80 + (n / 64) % 64 ∧ 0x80 + (n / 64) % 64 < 0xc0 := by
    constructor <;> omega
  have hg2 : 0x80 ≤ 0x80 + n % 64 ∧ 0x80 + n % 64 < 0xc0 := by
    constructor <;> omega
  have hcp : ((0xe0 + n / 4096 - 0xe0) * 64
      + (0x80 + (n / 64) % 64 - 0x80)) * 64 + (0x80 + n % 64 - 0x80) = n := by
    omega
  rw [show utf8DecodeAux none (.inl (0xe0 + n / 4096)
        :: .inl (0x80 + (n / 64) % 64) :: .inl (0x80 + n % 64) :: rest)
      = utf8DecodeAux (some (0xe0 + n / 4096 - 0xe0, 2))
          (.inl (0x80 + (n / 64) % 64) :: .inl (0x80 + n % 64) :: rest)
      from by
    simp only [utf8DecodeAux, if_neg hb1, if_neg hb2, if_neg hb3,
      if_pos hb4]]
  rw [show utf8DecodeAux (some (0xe0 + n / 4096 - 0xe0, 2))
        (.inl (0x80 + (n / 64) % 64) :: .inl (0x80 + n % 64) :: rest)
      = utf8DecodeAux (some ((0xe0 + n / 4096 - 0xe0) * 64
          + (0x80 + (n / 64) % 64 - 0x80), 1))
          (.inl (0x80 + n % 64) :: rest) from by
    simp only [utf8DecodeAux, if_pos hg1]
    norm_num]
  simp only [utf8DecodeAux, if_pos hg2, if_pos rfl, hcp]
  simp

theorem utf8Decode_four (n : Nat) (h1 : 65536 ≤ n) (h2 : n < 1114112)
    (rest : List (Sum Nat Char)) :
    utf8DecodeAux none (.inl (0xf0 + n / 262144)
        :: .inl (0x80 + (n / 4096) % 64) :: .inl (0x80 + (n / 64) % 64)
        :: .inl (0x80 + n % 64) :: rest)
      = (utf8DecodeAux none rest).map (fun s => Char.ofNat n :: s) := by
  have hb1 : ¬ (0xf0 + n / 262144 < 0x80) := by omega
  have hb2 : ¬ (0xf0 + n / 262144 < 0xc2) := by omega
  have hb3 : ¬ (0xf0 + n / 262144 < 0xe0) := by omega
  have hb4 : ¬ (0xf0 + n / 262144 < 0xf0) := by omega
  have hb5 : 0xf0 + n / 262144 < 0xf5 := by omega
  have hg1 : 0x80 ≤ 0x80 + (n / 4096) % 64
      ∧ 0x80 + (n / 4096) % 64 < 0xc0 := by
    constructor <;> omega
  have hg2 : 0x80 ≤ 0x80 + (n / 64) % 64 ∧ 0x80 + (n / 64) % 64 < 0xc0 := by
    constructor <;> omega
  have hg3 : 0x80 ≤ 0x80 + n % 64 ∧ 0x80 + n % 64 < 0xc0 := by
    constructor <;> omega
  have hcp : (((0xf0 + n / 262144 - 0xf0) * 64
      + (0x80 + (n / 4096) % 64 - 0x80)) * 64
      + (0x80 + (n / 64) % 64 - 0x80)) * 64 + (0x80 + n % 64 - 0x80) = n := by
    omega
  rw [show utf8DecodeAux none (.inl (0xf0 + n / 262144)
        :: .inl (0x80 + (n / 4096) % 64) :: .inl (0x80 + (n / 64) % 64)
        :: .inl (0x80 + n % 64) :: rest)
      = utf8DecodeAux (some (0xf0 + n / 262144 - 0xf0, 3))
          (.inl (0x80 + (n / 4096) % 64) :: .inl (0x80 + (n / 64) % 64)
            :: .inl (0x80 + n % 64) :: rest) from by
    simp only [utf8DecodeAux, if_neg hb1, if_neg hb2, if_neg hb3,
      if_neg hb4, if_pos hb5]]
  rw [show utf8DecodeAux (some (0xf0 + n / 262144 - 0xf0, 3))
        (.inl (0x80 + (n / 4096) % 64) :: .inl (0x80 + (n / 64) % 64)
          :: .inl (0x80 + n % 64) :: rest)
      = utf8DecodeAux (some ((0xf0 + n / 262144 - 0xf0) * 64
          + (0x80 + (n / 4096) % 64 - 0x80), 2))
          (.inl (0x80 + (n / 64) % 64) :: .inl (0x80 + n % 64) :: rest)
      from by
    simp only [utf8DecodeAux, if_pos hg1]
    norm_num]
  rw [show utf8DecodeAux (some ((0xf0 + n / 262144 - 0xf0) * 64
        + (0x80 + (n / 4096) % 64 - 0x80), 2))
        (.inl (0x80 + (n / 64) % 64) :: .inl (0x80 + n % 64) :: rest)
      = utf8DecodeAux (some (((0xf0 + n / 262144 - 0xf0) * 64
          + (0x80 + (n / 4096) % 64 - 0x80)) * 64
          + (0x80 + (n / 64) % 64 - 0x80), 1))
          (.inl (0x80 + n % 64) :: rest) from by
    simp only [utf8DecodeAux, if_pos hg2]
    norm_num]
  simp only [utf8DecodeAux, if_pos hg3, if_pos rfl, hcp]
  simp

theorem utf8DecodeTokens_bytes (c : Char) (rest : List (Sum Nat Char)) :
    utf8DecodeAux none ((utf8Bytes c).map Sum.inl ++ rest)
      = (utf8DecodeAux none rest).map (fun s => c :: s) := by
  have h := char_toNat_lt_1114112 c
  by_cases h1 : c.toNat < 128
  · rw [show utf8Bytes c = [c.toNat] from by simp [utf8Bytes, h1],
      List.map_cons, List.map_nil, List.cons_append, List.nil_append,
      utf8Decode_one c.toNat h1 rest, Char.ofNat_toNat]
  · by_cases h2 : c.toNat < 2048
    · rw [show utf8Bytes c
          = [0xc0 + c.toNat / 64, 0x80 + c.toNat % 64] from by
        simp [utf8Bytes, h1, h2]]
      simp only [List.map_cons, List.map_nil, List.cons_append,
        List.nil_append]
      rw [utf8Decode_two c.toNat (by omega) h2 rest, Char.ofNat_toNat]
    · by_cases h3 : c.toNat < 65536
      · rw [show utf8Bytes c
            = [0xe0 + c.toNat / 4096, 0x80 + (c.toNat / 64) % 64,
               0x80 + c.toNat % 64] from by
          simp [utf8Bytes, h1, h2, h3]]
        simp only [List.map_cons, List.map_nil, List.cons_append,
          List.nil_append]
        rw [utf8Decode_three c.toNat (by omega) h3 rest, Char.ofNat_toNat]
      · rw [show utf8Bytes c
            = [0xf0 + c.toNat / 262144, 0x80 + (c.toNat / 4096) % 64,
               0x80 + (c.toNat / 64) % 64, 0x80 + c.toNat % 64] from by
          simp [utf8Bytes, h1, h2, h3]]
        simp only [List.map_cons, List.map_nil, List.cons_append,
          List.nil_append]
        rw [utf8Decode_four c.toNat (by omega) h rest, Char.ofNat_toNat]

theorem utf8DecodeTokens_uri (s : JStr) :
    utf8DecodeTokens (uriTokens s) = some s := by
  induction s with
  | nil => rfl
  | cons c s' ih =>
    rw [show uriTokens (c :: s')
        = (if isUnreservedURI c then [Sum.inr c]
           else (utf8Bytes c).map Sum.inl) ++ uriTokens s' from rfl]
    by_cases hc : isUnreservedURI c
    · simp only [if_pos hc, List.singleton_append]
      rw [show utf8DecodeTokens (Sum.inr c :: uriTokens s')
          = (utf8DecodeAux none (uriTokens s')).map (fun s => c :: s) from by
        simp [utf8DecodeTokens, utf8DecodeAux]]
      rw [show utf8DecodeAux none (uriTokens s')
          = utf8DecodeTokens (uriTokens s') from rfl, ih]
      rfl
    · simp only [if_neg hc]
      rw [show utf8DecodeTokens ((utf8Bytes c).map Sum.inl ++ uriTokens s')
          = utf8DecodeAux none ((utf8Bytes c).map Sum.inl ++ uriTokens s')
          from rfl]
      rw [utf8DecodeTokens_bytes c (uriTokens s')]
      rw [show utf8DecodeAux none (uriTokens s')
          = utf8DecodeTokens (uriTokens s') from rfl, ih]
      rfl

theorem decodeURIComponent_encode (s : JStr) :
    decodeURIComponent (encodeURIComponent s) = some s := by
  simp [decodeURIComponent, pctTokens_encode, utf8DecodeTokens_uri]

theorem splitOnSlash_ne_nil (l : JStr) : splitOnSlash l ≠ [] := by
  cases l with
  | nil => simp [splitOnSlash]
  | cons c rest =>
    by_cases h : c = '/'
    · simp [splitOnSlash, h]
    · simp only [splitOnSlash, if_neg h]
      cases splitOnSlash rest <;> simp

theorem joinSlash_cons_of_ne_nil (s : JStr) (ss : List JStr) (h : ss ≠ []) :
    joinSlash (s :: ss) = s ++ '/' :: joinSlash ss := by
  cases ss with
  | nil => exact absurd rfl h
  | cons t ts => rfl

theorem joinSlash_splitOnSlash (l : JStr) :
    joinSlash (splitOnSlash l) = l := by
  induction l with
  | nil => rfl
  | cons c rest ih =>
    by_cases h : c = '/'
    · subst h
      rw [show splitOnSlash ('/' :: rest) = [] :: splitOnSlash rest from by
        simp [splitOnSlash]]
      rw [joinSlash_cons_of_ne_nil _ _ (splitOnSlash_ne_nil rest)]
      simp [ih]
    · rw [show splitOnSlash (c :: rest)
          = match splitOnSlash rest with
            | [] => [[c]]
            | s :: ss => (c :: s) :: ss from by
        simp only [splitOnSlash, if_neg h]]
      cases hsp : splitOnSlash rest with
      | nil => exact absurd hsp (splitOnSlash_ne_nil rest)
      | cons s ss =>
        have hjs : joinSlash (s :: ss) = rest := by rw [← hsp, ih]
        cases ss with
        | nil =>
          simp only [joinSlash] at hjs ⊢
          simp [hjs]
        | cons t ts =>
          rw [joinSlash_cons_of_ne_nil (c :: s) (t :: ts) (by simp)]
          rw [joinSlash_cons_of_ne_nil s (t :: ts) (by simp)] at hjs
          simp only [List.cons_append]
          rw [hjs]

theorem splitOnSlash_of_no_slash (s : JStr) (hs : ∀ c ∈ s, c ≠ '/') :
    splitOnSlash s = [s] := by
  induction s with
  | nil => rfl
  | cons c rest ih =>
    have hc : ¬ c = '/' := hs c (by simp)
    rw [show splitOnSlash (c :: rest)
        = match splitOnSlash rest with
          | [] => [[c]]
          | s :: ss => (c :: s) :: ss from by
      simp only [splitOnSlash, if_neg hc]]
    rw [ih (fun c' hc' => hs c' (by simp [hc']))]

theorem splitOnSlash_append_slash (s t : JStr) (hs : ∀ c ∈ s, c ≠ '/') :
    splitOnSlash (s ++ '/' :: t) = s :: splitOnSlash t := by
  induction s with
  | nil => simp [splitOnSlash]
  | cons c rest ih =>
    have hc : ¬ c = '/' := hs c (by simp)
    rw [List.cons_append]
    rw [show splitOnSlash (c :: (rest ++ '/' :: t))
        = match splitOnSlash (rest ++ '/' :: t) with
          | [] => [[c]]
          | s :: ss => (c :: s) :: ss from by
      simp only [splitOnSlash, if_neg hc]]
    rw [ih (fun c' hc' => hs c' (by simp [hc']))]

theorem splitOnSlash_joinSlash (segs : List JStr) (h : segs ≠ [])
    (hns : ∀ s ∈ segs, ∀ c ∈ s, c ≠ '/') :
    splitOnSlash (joinSlash segs) = segs := by
  induction segs with
  | nil => exact absurd rfl h
  | cons s ss ih =>
    cases ss with
    | nil =>
      show splitOnSlash (joinSlash [s]) = [s]
      rw [show joinSlash [s] = s from rfl]
      exact splitOnSlash_of_no_slash s (hns s (by simp))
    | cons t ts =>
      rw [joinSlash_cons_of_ne_nil s (t :: ts) (by simp)]
      rw [splitOnSlash_append_slash s _ (hns s (by simp))]
      rw [ih (by simp) (fun s' hs' => hns s' (by simp [hs']))]

theorem encodeURIComponent_no_slash (s : JStr) :
    ∀ c' ∈ encodeURIComponent s, c' ≠ '/' := by
  intro c' hc'
  unfold encodeURIComponent at hc'
  rw [List.mem_flatten] at hc'
  obtain ⟨piece, hpiece, hcp⟩ := hc'
  rw [List.mem_map] at hpiece
  obtain ⟨c, _, hpc⟩ := hpiece
  subst hpc
  unfold pctEncodeChar at hcp
  by_cases hu : isUnreservedURI c
  · rw [if_pos hu] at hcp
    simp at hcp
    subst hcp
    intro hc
    subst hc
    exact absurd hu (by decide)
  · rw [if_neg hu] at hcp
    unfold pctTriples at hcp
    rw [List.mem_flatten] at hcp
    obtain ⟨trip, htrip, hct⟩ := hcp
    rw [List.mem_map] at htrip
    obtain ⟨b, hb, htr⟩ := htrip
    subst htr
    have hb256 : b < 256 := utf8Bytes_lt_256 c b hb
    simp only [List.mem_cons, List.not_mem_nil, or_false] at hct
    rcases hct with hct | hct | hct
    · subst hct
      decide
    · subst hct
      exact hexDigitChar_ne_slash (b / 16) (by omega)
    · subst hct
      exact hexDigitChar_ne_slash (b % 16) (by omega)

/-- C5: `pathToFileUrl` is `file://` followed by the `'/'`-separated
segments each percent-encoded, and the recovery procedure — strip the
prefix, split on `'/'`, percent-decode each segment, rejoin — returns
the original path. -/
theorem pathToFileUrl_roundtrip (path : JStr) :
    pathToFileUrl path
      = "file://".toList
        ++ joinSlash ((splitOnSlash path).map encodeURIComponent)
    ∧ (pathToFileUrl path).take 7 = "file://".toList
    ∧ recoverPath (pathToFileUrl path) = some path := by
  refine ⟨rfl, ?_, ?_⟩
  · unfold pathToFileUrl
    exact List.take_left' rfl
  · unfold recoverPath pathToFileUrl
    rw [List.drop_left' (show ("file://".toList : JStr).length = 7 from
      rfl)]
    rw [splitOnSlash_joinSlash ((splitOnSlash path).map encodeURIComponent)
      (by
        intro hmap
        exact splitOnSlash_ne_nil path (List.map_eq_nil_iff.mp hmap))
      (by
        intro s hs
        rw [List.mem_map] at hs
        obtain ⟨seg, _, hseg⟩ := hs
        subst hseg
        exact encodeURIComponent_no_slash seg)]
    rw [show ((splitOnSlash path).map encodeURIComponent).mapM
          decodeURIComponent
        = some (splitOnSlash path) from by
      induction splitOnSlash path with
      | nil => rfl
      | cons s ss ih =>
        rw [List.map_cons, List.mapM_cons, decodeURIComponent_encode, ih]
        rfl]
    simp [joinSlash_splitOnSlash]

end CmdsEagle
